import Mathlib

/-!
Shallow embedding of `autosub/ffmpeg_utils.py` (the audio-extraction and
command-pipeline subsystem) and proofs about it.

Modelling conventions:
* Python strings are Lean `String`s; the character-level helpers work on
  `List Char` so that everything reduces in the kernel.
* Python `float` arithmetic is modelled with `ℚ` (the module only divides,
  adds and compares small decimal quantities).
* The filesystem is a list of existing paths; external-process effects are
  recorded as an explicit event trace (see `Ev` below).
* The module targets Python 3 (its `len(list(num_list))` shim and its use of
  `input` as a prompt-to-string function are Python 3 idioms), so `map`
  produces a one-shot iterator that does not support subscripting.
-/

namespace FfmpegUtils

/-- The character `{` (written via its code point to keep it out of string
literals). -/
def openBr : Char := Char.ofNat 123

/-- The character `}`. -/
def closeBr : Char := Char.ofNat 125

/-- Python `str.strip(c)` for a single strip character: drop leading and
trailing occurrences of `c`. -/
def pyStripL (c : Char) (l : List Char) : List Char :=
  ((l.dropWhile (· = c)).reverse.dropWhile (· = c)).reverse

def pyStrip (c : Char) (s : String) : String :=
  ⟨pyStripL c s.data⟩

/-- Python `str.split(sep)` for a single separator character; keeps empty
fields, and `"".split(sep) == [""]`. -/
def pySplitL (sep : Char) : List Char → List (List Char)
  | [] => [[]]
  | c :: rest =>
    if c = sep then [] :: pySplitL sep rest
    else
      match pySplitL sep rest with
      | [] => [[c]]
      | g :: gs => (c :: g) :: gs

def pySplit (sep : Char) (s : String) : List String :=
  (pySplitL sep s.data).map fun l => ⟨l⟩

/-- Python `str.rfind(c)`: index of the last occurrence of `c`, `-1` when
absent. -/
def rfindZ (c : Char) (l : List Char) : ℤ :=
  match l.reverse.findIdx? (· = c) with
  | none => -1
  | some i => (l.length : ℤ) - 1 - i

/-- CPython `posixpath.splitext`: split off the extension at the last dot of
the basename, unless the basename consists of leading dots only. -/
def splitextL (p : List Char) : List Char × List Char :=
  let sepIndex := rfindZ '/' p
  let dotIndex := rfindZ '.' p
  if dotIndex > sepIndex ∧
      ((p.drop (sepIndex + 1).toNat).take (dotIndex - (sepIndex + 1)).toNat).any
        (· ≠ '.') then
    (p.take dotIndex.toNat, p.drop dotIndex.toNat)
  else
    (p, [])

def splitext (s : String) : String × String :=
  let (a, b) := splitextL s.data
  (⟨a⟩, ⟨b⟩)

/-- CPython `posixpath.split`: split at the final slash; the head keeps no
trailing slashes unless it is all slashes. -/
def osSplitL (p : List Char) : List Char × List Char :=
  let i := (rfindZ '/' p + 1).toNat
  let head := p.take i
  let tail := p.drop i
  let head :=
    if head ≠ [] ∧ head.any (· ≠ '/') then
      (head.reverse.dropWhile (· = '/')).reverse
    else head
  (head, tail)

/-- CPython `posixpath.join` for two components. -/
def pathJoin (a b : String) : String :=
  if b.data.head? = some '/' then b
  else if a.data = [] ∨ a.data.getLast? = some '/' then a ++ b
  else a ++ "/" ++ b

/-- Numeric value of a digit string (`int()` on a `re` digit group). -/
def natOfDigits (l : List Char) : ℕ :=
  l.foldl (fun acc c => acc * 10 + (c.toNat - 48)) 0

/-- `re.findall(r'\d+', s)`: the maximal runs of digits in `s`, in order
(ASCII digits; the prober's rational output is ASCII). -/
def digitGroups : List Char → List (List Char)
  | [] => []
  | c :: rest =>
    let gs := digitGroups rest
    if c.isDigit then
      match rest with
      | [] => [[c]]
      | d :: _ =>
        if d.isDigit then
          match gs with
          | g :: gs2 => (c :: g) :: gs2
          | [] => [[c]]
        else [c] :: gs
    else gs

/-- Model of Python `float(str)` on the decimal fragment this module can
meet: optional surrounding whitespace, optional sign, digits with an
optional fractional part (no exponents, infinities or NaN payloads, which
the prompting code never produces meaningfully). `none` models the
`ValueError` that `float` raises on anything unparsable. -/
def pySign (neg : Bool) (q : ℚ) : ℚ := if neg then -q else q

def pyFloat (s : String) : Option ℚ :=
  let t := ((s.data.dropWhile (·.isWhitespace)).reverse.dropWhile
    (·.isWhitespace)).reverse
  match t with
  | [] => none
  | l =>
    let negAndRest : Bool × List Char :=
      match l with
      | c :: rest =>
        if c = '+' then (false, rest)
        else if c = '-' then (true, rest)
        else (false, l)
      | [] => (false, [])
    let neg := negAndRest.1
    let l1 := negAndRest.2
    let intPart := l1.takeWhile Char.isDigit
    let l2 := l1.dropWhile Char.isDigit
    match l2 with
    | [] =>
      if intPart = [] then none
      else some (pySign neg (natOfDigits intPart : ℚ))
    | c :: rest =>
      if c = '.' then
        let frac := rest.takeWhile Char.isDigit
        let l3 := rest.dropWhile Char.isDigit
        if l3 ≠ [] then none
        else if intPart = [] ∧ frac = [] then none
        else some (pySign neg ((natOfDigits intPart : ℚ) +
          (natOfDigits frac : ℚ) / 10 ^ frac.length))
      else none

/-- Python `str.replace(old, new)` (all non-overlapping occurrences, left to
right); the second argument counts down the characters still to skip after
an accepted occurrence. The module only uses a non-empty `old`, so the
empty-`old` behaviour (identity here) is never exercised. -/
def pyRepGo (old new : List Char) : List Char → ℕ → List Char
  | [], _ => []
  | _ :: rest, k + 1 => pyRepGo old new rest k
  | c :: rest, 0 =>
    if old ≠ [] ∧ old.isPrefixOf (c :: rest) then
      new ++ pyRepGo old new rest (old.length - 1)
    else c :: pyRepGo old new rest 0

def pyReplace (s old new : String) : String :=
  ⟨pyRepGo old.data new.data s.data 0⟩

/-- Scanner state for `str.format`: plain text, just after an unescaped
`\x7b`, just after an unescaped `\x7d`, or inside a replacement field
accumulating the field name. -/
inductive FmtMode where
  | txt : FmtMode
  | sawOpen : FmtMode
  | sawClose : FmtMode
  | fld : List Char → FmtMode

/-- Python `str.format(in_=…, out_=…)` restricted to the shapes the module's
command templates use: the fields `in_` and `out_`, plus the doubled-brace
escapes. Any other field, or an unbalanced brace, is a format error
(`none`, modelling the `KeyError`/`ValueError` `format` raises). The scanner
consumes one character per step. -/
def pyFmtGo (inS outS : List Char) : FmtMode → List Char → Option (List Char)
  | FmtMode.txt, [] => some []
  | FmtMode.sawOpen, [] => none
  | FmtMode.sawClose, [] => none
  | FmtMode.fld _, [] => none
  | FmtMode.txt, c :: rest =>
    if c = openBr then pyFmtGo inS outS FmtMode.sawOpen rest
    else if c = closeBr then pyFmtGo inS outS FmtMode.sawClose rest
    else (pyFmtGo inS outS FmtMode.txt rest).map (c :: ·)
  | FmtMode.sawOpen, c :: rest =>
    if c = openBr then (pyFmtGo inS outS FmtMode.txt rest).map (openBr :: ·)
    else if c = closeBr then none
    else pyFmtGo inS outS (FmtMode.fld [c]) rest
  | FmtMode.sawClose, c :: rest =>
    if c = closeBr then (pyFmtGo inS outS FmtMode.txt rest).map (closeBr :: ·)
    else none
  | FmtMode.fld acc, c :: rest =>
    if c = closeBr then
      if acc = "in_".data then (pyFmtGo inS outS FmtMode.txt rest).map (inS ++ ·)
      else if acc = "out_".data then
        (pyFmtGo inS outS FmtMode.txt rest).map (outS ++ ·)
      else none
    else pyFmtGo inS outS (FmtMode.fld (acc ++ [c])) rest

def pyFormat (tmpl inS outS : String) : Option String :=
  (pyFmtGo inS.data outS.data FmtMode.txt tmpl.data).map fun l => ⟨l⟩

/-- Whether a command template formats successfully (success is independent
of the substituted strings; see `pyFormat_isSome`). -/
def fmtOk (tmpl : String) : Bool :=
  (pyFormat tmpl "" "").isSome

/-- `command[:7].replace('ffmpeg ', ffmpeg_cmd + ' ') + command[7:]`: the
tool-name splice of `audio_pre_prcs`. -/
def spliceFf (cmd ffc : String) : String :=
  ⟨pyRepGo "ffmpeg ".data (ffc ++ " ").data (cmd.data.take 7) 0 ++ cmd.data.drop 7⟩

/-! ## `ffprobe_get_fps` -/

/-- The prompt printed by `ffprobe_get_fps` when asking for a manual frame
rate (the two adjacent source string literals concatenated). -/
def fpsPrompt : String :=
  "Input your video fps. Any illegal input will regard as \".srt\" instead.\n"

/-- Result of `ffprobe_get_fps`: either a returned frame rate, or the
uncaught `TypeError` that escapes the function. -/
inductive ProbeOutcome where
  | ret : ℚ → ProbeOutcome
  | typeError : ProbeOutcome
  deriving DecidableEq, Repr

/-- `ffprobe_get_fps(video_file, input_m)`. The ffprobe invocation is an
oracle: `Except.error ()` models `subprocess.CalledProcessError` (or a
failure to start), `Except.ok s` the decoded raw output. `input_m` is the
optional interactive capability.

`num_list = map(int, re.findall(r'\d+', …))` is a Python 3 one-shot
iterator; `len(list(num_list))` exhausts it, and a `map` object does not
support subscripting, so when exactly two integers are found the line
`fps = float(num_list[0]) / float(num_list[1])` raises `TypeError`, which is
not in the `except (subprocess.CalledProcessError, ValueError)` tuple and
therefore propagates. In every other case the handler runs: it prints a
diagnostic, then prompts when `input_m` is available (a non-positive or
unparsable entry falls back to `0.0` via the inner `ValueError` handler),
and returns `0.0` directly otherwise. -/
def ffprobe_get_fps (probe : Except Unit String)
    (input_m : Option (String → String)) : ProbeOutcome :=
  let fallback : ProbeOutcome :=
    match input_m with
    | some f =>
      let input_str := f fpsPrompt
      match pyFloat input_str with
      | some fps => if fps ≤ 0 then ProbeOutcome.ret 0 else ProbeOutcome.ret fps
      | none => ProbeOutcome.ret 0
    | none => ProbeOutcome.ret 0
  match probe with
  | Except.error _ => fallback
  | Except.ok out =>
    let num_list := (digitGroups out.data).map natOfDigits
    if num_list.length = 2 then ProbeOutcome.typeError
    else fallback

/-- Whether the prober invocation succeeded and its raw output contains
exactly two integers under digit-extraction. -/
def probeTwoInts (probe : Except Unit String) : Bool :=
  match probe with
  | Except.error _ => false
  | Except.ok out => ((digitGroups out.data).map natOfDigits).length = 2

/-! ## `SplitIntoFLACPiece` -/

/-- Configuration of the region extractor (`__init__` fields, with the
source defaults). Python floats are modelled as `ℚ`. -/
structure SplitIntoFLACPiece where
  source_path : String
  ffmpeg_cmd : String := "ffmpeg"
  include_before : ℚ := 0.25
  include_after : ℚ := 0.25

/-- The seek-and-duration extraction request `__call__` passes to the
converter: the values rendered into the `-ss`/`-t`/`-i` arguments of the
command list (their decimal rendering by `str` is injective, so the values
themselves are modelled). -/
structure ExtractReq where
  seek : ℚ
  dur : ℚ
  src : String
  tool : String
  deriving DecidableEq, Repr

/-- The numeric part of `__call__`ʼs body before the invocation:
`start = max(0.0, start_ms/1000 - include_before)`,
`end = end_ms/1000 + include_after`, duration `end - start`. -/
def splitReq (s : SplitIntoFLACPiece) (region : ℤ × ℤ) : ExtractReq :=
  let start : ℚ := (region.1 : ℚ) / 1000
  let endv : ℚ := (region.2 : ℚ) / 1000
  let start := max 0 (start - s.include_before)
  let endv := endv + s.include_after
  { seek := start, dur := endv - start, src := s.source_path,
    tool := s.ffmpeg_cmd }

/-- Python exceptions that can arise from the invocation / file I/O inside
`__call__`. -/
inductive ExcKind where
  | keyboardInterrupt : ExcKind
  | calledProcessError : ExcKind
  | osError : ExcKind
  deriving DecidableEq, Repr

/-- Result of `SplitIntoFLACPiece.__call__`: the read-back bytes, the
`None` produced by the `except KeyboardInterrupt` handler, or a propagated
exception. -/
inductive CallResult where
  | data : List ℕ → CallResult
  | cancelled : CallResult
  | raised : ExcKind → CallResult
  deriving DecidableEq, Repr

/-- `__call__` given the outcome of the external invocation and file I/O:
the whole body sits in `try: … except KeyboardInterrupt: return None`, so a
`KeyboardInterrupt` becomes `None` and every other exception propagates. -/
def splitCall (_s : SplitIntoFLACPiece) (_region : ℤ × ℤ)
    (outcome : Except ExcKind (List ℕ)) : CallResult :=
  match outcome with
  | Except.ok bs => CallResult.data bs
  | Except.error ExcKind.keyboardInterrupt => CallResult.cancelled
  | Except.error e => CallResult.raised e

/-! ## `which_exe` and `check_cmd` -/

/-- `is_exe(file_path)`: `os.path.isfile` and `os.access(…, X_OK)` are the
two read-only filesystem capabilities, passed as predicates. -/
def is_exe (isFile canExec : String → Bool) (file_path : String) : Bool :=
  isFile file_path && canExec file_path

/-- The `for path in os.environ["PATH"].split(os.pathsep)` loop body:
return the first joined candidate that is executable. -/
def whichGo (isFile canExec : String → Bool) (program_name : String) :
    List String → Option String
  | [] => none
  | d :: rest =>
    let path := pyStrip '"' d
    let exe_file := pathJoin path program_name
    if is_exe isFile canExec exe_file then some exe_file
    else whichGo isFile canExec program_name rest

/-- `which_exe(program_name)` (POSIX: `os.sep = '/'`, `os.pathsep = ':'`).
`pathEnv` is `os.environ["PATH"]`. The function only reads the filesystem
(through `is_exe`); the embedding is a pure function of those reads. -/
def which_exe (isFile canExec : String → Bool) (pathEnv : String)
    (program_name : String) : Option String :=
  let fpath := (osSplitL program_name.data).1
  if fpath ≠ [] then
    if is_exe isFile canExec program_name then some program_name else none
  else
    whichGo isFile canExec program_name (pySplit ':' pathEnv)

/-- `check_cmd(program_name)`: retry with a `.exe` suffix. -/
def check_cmd (isFile canExec : String → Bool) (pathEnv : String)
    (program_name : String) : Option String :=
  if (which_exe isFile canExec pathEnv program_name).isSome then
    some program_name
  else if (which_exe isFile canExec pathEnv (program_name ++ ".exe")).isSome then
    some (program_name ++ ".exe")
  else none

/-! ## `audio_pre_prcs`: filesystem/process model

`audio_pre_prcs` interleaves filesystem operations (`os.path.isfile`,
`os.remove`, `tempfile.NamedTemporaryFile(delete=False)`), external
commands (`subprocess.check_output`) and prompting. The filesystem is the
list of currently existing paths; every effect is also recorded in an
event trace. A successful external command writes (exactly) the output
path substituted into its template — the environment assumption under
which the pipeline is specified. `Ev.exec` additionally records the
filesystem as it was at the moment of the invocation. -/

/-- One observable effect of the pipeline. -/
inductive Ev where
  | create : String → Ev
  | remove : String → Ev
  | exec : String → Bool → String → List String → Ev
  | prompt : String → String → Ev
  | note : String → Ev
  deriving DecidableEq, Repr

/-- Pipeline state: existing paths, the temp-name allocator counter, the
count of prompts answered so far, and the chronological event trace. -/
structure St where
  fs : List String
  ctr : ℕ
  pctr : ℕ
  evs : List Ev
  deriving DecidableEq, Repr

/-- `os.path.isfile`. -/
def isfile (st : St) (p : String) : Bool := p ∈ st.fs

/-- `os.remove`. -/
def rmF (st : St) (p : String) : St :=
  { st with fs := st.fs.erase p, evs := st.evs ++ [Ev.remove p] }

/-- `tempfile.NamedTemporaryFile(suffix='.flac', delete=False)`: allocates
the next name from the injective allocator `names` and creates the (empty)
file on disk. -/
def mkTempF (names : ℕ → String) (st : St) : String × St :=
  let n := names st.ctr
  (n, { st with
          fs := n :: st.fs
          ctr := st.ctr + 1
          evs := st.evs ++ [Ev.create n] })

/-- `subprocess.check_output(command, …, shell=sh)` for a stage whose
substituted output path is `out`: on success the tool writes `out`. The
pre-invocation filesystem is recorded in the event. -/
def runCmd (st : St) (command : String) (sh : Bool) (out : String) : St :=
  { st with
      fs := if out ∈ st.fs then st.fs else out :: st.fs
      evs := st.evs ++ [Ev.exec command sh out st.fs] }

/-- A call of the interactive capability: the (supplied) response stream
answers prompt number `st.pctr`. -/
def promptF (inp : ℕ → String) (st : St) (msg : String) : String × St :=
  let r := inp st.pctr
  (r, { st with pctr := st.pctr + 1, evs := st.evs ++ [Ev.prompt msg r] })

/-- A `print` diagnostic. -/
def noteF (st : St) (msg : String) : St :=
  { st with evs := st.evs ++ [Ev.note msg] }

/-- The collision diagnostic printed in keep mode. -/
def collisionMsg (dest_name : String) : String :=
  "There is already a file with the same name in this location: \"" ++
    dest_name ++ "\"."

/-- The keep-mode re-prompt text. -/
def newPathPrompt : String :=
  "Input a new path (including directory and file name) for output file.\n"

/-- The transformation the keep-mode loop applies to a prompted response:
`os.path.splitext(resp)[0]` then `'{base}.{extension}'.format(base=…,
extension='temp.flac')`. -/
def altPath (resp : String) : String :=
  (splitext resp).1 ++ ".temp.flac"

/-- The keep-mode `while os.path.isfile(output_list[i])` loop, with fuel
(the source loop repeats for as long as the prompted paths keep
colliding; `none` models non-termination within the given fuel). -/
def collisionLoop (inp : ℕ → String) : ℕ → String → St → Option (String × St)
  | 0, cur, st => if isfile st cur then none else some (cur, st)
  | fuel + 1, cur, st =>
    if isfile st cur then
      let st := noteF st (collisionMsg cur)
      let (resp, st) := promptF inp st newPathPrompt
      collisionLoop inp fuel (altPath resp) st
    else some (cur, st)

/-- The keep-mode stage loop (`for i in range(1, len(cmds) + 1)` with
`is_keep`): derive `<stem>_temp_<i>.flac`, resolve collisions (prompting
when interactive, deleting otherwise), substitute, splice the tool-name
override, and invoke with `shell=False`. -/
def keepLoop (inp? : Option (ℕ → String)) (ffc stem : String) (fuel : ℕ) :
    List String → ℕ → String → St → Option (String × St)
  | [], _, prev, st => some (prev, st)
  | c :: rest, i, prev, st =>
    let derived := stem ++ "_temp_" ++ toString i ++ ".flac"
    let step : Option (String × St) :=
      match inp? with
      | some inp => collisionLoop inp fuel derived st
      | none =>
        some (derived, if isfile st derived then rmF st derived else st)
    match step with
    | none => none
    | some (out, st) =>
      match pyFormat c prev out with
      | none => none
      | some cmd0 =>
        let command := spliceFf cmd0 ffc
        let st := runCmd st command false out
        keepLoop inp? ffc stem fuel rest (i + 1) out st

/-- The scratch-mode per-stage prologue: allocate a fresh temp file, then
`if os.path.isfile(temp): os.remove(temp)` — the allocation is deleted
again before the stage command runs. -/
def scratchStage (names : ℕ → String) (st : St) : String × St :=
  let (temp, st) := mkTempF names st
  (temp, if isfile st temp then rmF st temp else st)

/-- The scratch-mode `for i in range(2, len(cmds) + 1)` loop: every stage
here splices the override, runs with `shell=False`, and deletes the
previous stage's artifact after the invocation returns. -/
def scratchLoop (names : ℕ → String) (ffc : String) :
    List String → String → St → Option (String × St)
  | [], prev, st => some (prev, st)
  | c :: rest, prev, st =>
    let (temp, st) := scratchStage names st
    match pyFormat c prev temp with
    | none => none
    | some cmd0 =>
      let command := spliceFf cmd0 ffc
      let st := runCmd st command false temp
      let st := rmF st prev
      scratchLoop names ffc rest temp st

/-- `audio_pre_prcs(filename, is_keep, cmds, input_m, ffmpeg_cmd)`.
`dflt` models `constants.DEFAULT_AUDIO_PRCS` (an external configuration
collaborator; only its shape matters here), substituted when `cmds` is
empty (`if not cmds`). In scratch mode the first stage is run on `cmds[0]`
without the tool-name splice; an empty stage list there is the `cmds[0]`
`IndexError` (`none`). The final return value is `output_list[-1]`. -/
def audio_pre_prcs (names : ℕ → String) (dflt : List String)
    (filename : String) (is_keep : Bool) (cmds0 : List String)
    (input_m : Option (ℕ → String)) (ffmpeg_cmd : String) (fuel : ℕ)
    (st : St) : Option (String × St) :=
  let name_list := splitext filename
  let cmds := if cmds0.isEmpty then dflt else cmds0
  if is_keep then
    keepLoop input_m ffmpeg_cmd name_list.1 fuel cmds 1 filename st
  else
    match cmds with
    | [] => none
    | c0 :: rest =>
      let (temp, st) := scratchStage names st
      match pyFormat c0 filename temp with
      | none => none
      | some command =>
        let st := runCmd st command false temp
        scratchLoop names ffmpeg_cmd rest temp st

/-- The `(command, shell, output-path)` triples of the executed commands in
a trace, in order. -/
def execTriples (l : List Ev) : List (String × Bool × String) :=
  l.filterMap fun e =>
    match e with
    | Ev.exec c sh out _ => some (c, sh, out)
    | _ => none

/-- The number of temp-file allocations in a trace. -/
def createCount (l : List Ev) : ℕ :=
  (l.filter fun e =>
    match e with
    | Ev.create _ => true
    | _ => false).length

/-- The exec triples the keep-mode loop produces when no collision
interferes: at stage `i` the output is the derived deterministic name, and
every command is spliced. -/
def keepTriples (ffc stem : String) :
    List String → ℕ → String → List (String × Bool × String)
  | [], _, _ => []
  | c :: rest, i, prev =>
    let out := stem ++ "_temp_" ++ toString i ++ ".flac"
    (spliceFf ((pyFormat c prev out).getD "") ffc, false, out) ::
      keepTriples ffc stem rest (i + 1) out

/-- The exec triples of the scratch-mode tail loop: stage `k` of the tail
consumes the previous temp and writes `names (ctr + k)`, through a spliced
command. -/
def scratchTriples (names : ℕ → String) (ffc : String) :
    List String → String → ℕ → List (String × Bool × String)
  | [], _, _ => []
  | c :: rest, prev, ctr =>
    (spliceFf ((pyFormat c prev (names ctr)).getD "") ffc, false, names ctr) ::
      scratchTriples names ffc rest (names ctr) (ctr + 1)

/-- The final artifact of a scratch-mode tail run of `n` stages starting
with artifact `prev` and allocator counter `ctr`. -/
def scratchOut (names : ℕ → String) (prev : String) (ctr n : ℕ) : String :=
  if n = 0 then prev else names (ctr + n - 1)

/-- The directories of the search path, in order. -/
def pathDirs (pathEnv : String) : List String := pySplit ':' pathEnv

/-- The candidate executable path built from search-path directory `i`. -/
def candidate (pathEnv program_name : String) (i : ℕ) : String :=
  pathJoin (pyStrip '"' ((pathDirs pathEnv).getD i "")) program_name

/-- The final artifact name of a keep-mode non-interactive run of `n`
stages starting at stage index `i` with input `prev`. -/
def keepOutNone (stem : String) (i : ℕ) (prev : String) (n : ℕ) : String :=
  if n = 0 then prev else stem ++ "_temp_" ++ toString (i + n - 1) ++ ".flac"

/-- A concrete temp-name allocator used in witnesses and counterexamples. -/
def wNames : ℕ → String := fun k => "/tmp/t" ++ toString k

/-- A concrete two-stage template list used in witnesses and
counterexamples (braces written via escapes). -/
def wCmds : List String :=
  ["ffmpeg -i \x7bin_\x7d \x7bout_\x7d", "ffmpeg -f flac \x7bin_\x7d \x7bout_\x7d"]

/-- A concrete scratch-mode run (source file `a.mp4` on disk, tool-name
override `avconv`). -/
def cexScratch : Option (String × St) :=
  audio_pre_prcs wNames [] "a.mp4" false wCmds none "avconv" 5
    ⟨["a.mp4"], 0, 0, []⟩

/-- The same run in keep mode. -/
def cexKeep : Option (String × St) :=
  audio_pre_prcs wNames [] "a.mp4" true wCmds none "avconv" 5
    ⟨["a.mp4"], 0, 0, []⟩

/-- A keep-mode interactive run with a pre-existing collision at
`a_temp_1.flac` and the capability answering `/tmp/alt`. -/
def cexKeepAlt : Option (String × St) :=
  audio_pre_prcs wNames [] "a.mp4" true ["ffmpeg -i \x7bin_\x7d \x7bout_\x7d"]
    (some fun _ => "/tmp/alt") "avconv" 5 ⟨["a.mp4", "a_temp_1.flac"], 0, 0, []⟩

/-- The event trace of an optional run (empty when the run failed). -/
def runEvs (r : Option (String × St)) : List Ev :=
  (r.getD ("", ⟨[], 0, 0, []⟩)).2.evs

/-- The final state of the concrete scratch-mode run. -/
def cexScratchSt : St := (cexScratch.getD ("", ⟨[], 0, 0, []⟩)).2

/-! ## Helper lemmas -/

lemma closeBr_ne_openBr : ¬ closeBr = openBr := by decide

/-- Whether formatting succeeds depends only on the template, not on the
substituted strings. -/
lemma pyFmtGo_isSome (i1 o1 i2 o2 : List Char) :
    ∀ (l : List Char) (m : FmtMode),
      (pyFmtGo i1 o1 m l).isSome = (pyFmtGo i2 o2 m l).isSome := by
  intro l
  induction l with
  | nil => intro m; cases m <;> rfl
  | cons c rest ih =>
    intro m
    cases m with
    | txt =>
      by_cases h1 : c = openBr
      · simp [pyFmtGo, h1, ih]
      · by_cases h2 : c = closeBr <;>
          simp [pyFmtGo, h1, h2, Option.isSome_map, ih, closeBr_ne_openBr]
    | sawOpen =>
      by_cases h1 : c = openBr
      · simp [pyFmtGo, h1, Option.isSome_map, ih]
      · by_cases h2 : c = closeBr <;>
          simp [pyFmtGo, h1, h2, Option.isSome_map, ih, closeBr_ne_openBr]
    | sawClose =>
      by_cases h1 : c = closeBr <;>
        simp [pyFmtGo, h1, Option.isSome_map, ih]
    | fld acc =>
      by_cases h1 : c = closeBr
      · by_cases h2 : acc = "in_".data
        · simp [pyFmtGo, h1, h2, Option.isSome_map, ih]
        · by_cases h3 : acc = "out_".data <;>
            simp [pyFmtGo, h1, h2, h3, Option.isSome_map, ih]
      · simp [pyFmtGo, h1, ih]

/-- A template that passes `fmtOk` formats successfully for any
substituted strings. -/
lemma pyFormat_some (tmpl inS outS : String) (h : fmtOk tmpl = true) :
    ∃ s, pyFormat tmpl inS outS = some s := by
  have hiff := pyFmtGo_isSome inS.data outS.data "".data "".data
    tmpl.data FmtMode.txt
  have hs : (pyFormat tmpl inS outS).isSome = true := by
    simpa [pyFormat, fmtOk, Option.isSome_map, hiff] using h
  obtain ⟨s, hs⟩ := Option.isSome_iff_exists.mp hs
  exact ⟨s, hs⟩

/-- Full characterization of the scratch-mode tail loop: it succeeds, its
final artifact is the last allocated temp name, the filesystem gains
exactly that artifact, every executed command runs with `shell = false` on
an output path absent at invocation time, removals only concern the
consumed artifacts, and each of the `rest.length` allocations is both
created and (at least once) removed. -/
lemma scratchLoop_spec (names : ℕ → String) (ffc : String) :
    ∀ (rest : List String) (prev : String) (fs0 : List String) (ctr pc : ℕ)
      (evs : List Ev),
      (∀ j k, ctr ≤ j → j < ctr + rest.length → ctr ≤ k →
        k < ctr + rest.length → names j = names k → j = k) →
      (∀ j, ctr ≤ j → j < ctr + rest.length →
        names j ∉ fs0 ∧ names j ≠ prev) →
      (∀ t, t ∈ rest → fmtOk t = true) →
      ∃ st',
        scratchLoop names ffc rest prev ⟨prev :: fs0, ctr, pc, evs⟩ =
          some (scratchOut names prev ctr rest.length, st') ∧
        st'.fs = scratchOut names prev ctr rest.length :: fs0 ∧
        st'.ctr = ctr + rest.length ∧
        st'.pctr = pc ∧
        (∀ e, e ∈ evs → e ∈ st'.evs) ∧
        execTriples st'.evs =
          execTriples evs ++ scratchTriples names ffc rest prev ctr ∧
        (∀ c sh o pre, Ev.exec c sh o pre ∈ st'.evs →
          Ev.exec c sh o pre ∈ evs ∨ (sh = false ∧ o ∉ pre)) ∧
        (∀ p, Ev.remove p ∈ st'.evs →
          Ev.remove p ∈ evs ∨ p = prev ∨
            ∃ j, ctr ≤ j ∧ j < ctr + rest.length ∧ p = names j) ∧
        createCount st'.evs = createCount evs + rest.length ∧
        (∀ j, ctr ≤ j → j < ctr + rest.length →
          Ev.create (names j) ∈ st'.evs ∧ Ev.remove (names j) ∈ st'.evs) := by
  intro rest
  induction rest with
  | nil =>
    intro prev fs0 ctr pc evs _ _ _
    refine ⟨⟨prev :: fs0, ctr, pc, evs⟩, rfl, rfl, by simp, rfl,
      fun e he => he, by simp [scratchTriples], ?_, ?_, by simp, ?_⟩
    · intro c sh o pre he
      exact Or.inl he
    · intro p hp
      exact Or.inl hp
    · intro j h1 h2
      simp only [List.length_nil, Nat.add_zero] at h2
      omega
  | cons c rest ih =>
    intro prev fs0 ctr pc evs hinj hfresh hfmt
    simp only [List.length_cons] at hinj hfresh ⊢
    obtain ⟨s, hs⟩ := pyFormat_some c prev (names ctr) (hfmt c (by simp))
    have hfr := hfresh ctr (le_refl _) (by simp)
    have hnotin : names ctr ∉ prev :: fs0 := by
      simp only [List.mem_cons]
      rintro (h | h)
      · exact hfr.2 h
      · exact hfr.1 h
    have herase : (names ctr :: prev :: fs0).erase prev = names ctr :: fs0 := by
      rw [List.erase_cons_tail (by simpa using hfr.2),
        List.erase_cons_head]
    have hstep :
        scratchLoop names ffc (c :: rest) prev ⟨prev :: fs0, ctr, pc, evs⟩ =
        scratchLoop names ffc rest (names ctr)
          ⟨names ctr :: fs0, ctr + 1, pc,
            evs ++ [Ev.create (names ctr), Ev.remove (names ctr),
              Ev.exec (spliceFf s ffc) false (names ctr) (prev :: fs0),
              Ev.remove prev]⟩ := by
      simp only [scratchLoop, scratchStage, mkTempF, isfile, rmF, runCmd, hs]
      simp [hnotin, herase]
    have hinj2 : ∀ j k, ctr + 1 ≤ j → j < ctr + 1 + rest.length →
        ctr + 1 ≤ k → k < ctr + 1 + rest.length → names j = names k → j = k := by
      intro j k h1 h2 h3 h4 he
      exact hinj j k (by omega) (by omega) (by omega) (by omega) he
    have hfresh2 : ∀ j, ctr + 1 ≤ j → j < ctr + 1 + rest.length →
        names j ∉ fs0 ∧ names j ≠ names ctr := by
      intro j h1 h2
      refine ⟨(hfresh j (by omega) (by omega)).1, fun he => ?_⟩
      have := hinj j ctr (by omega) (by omega) (by omega) (by omega) he
      omega
    have hfmt2 : ∀ t, t ∈ rest → fmtOk t = true := by
      intro t ht
      exact hfmt t (by simp [ht])
    obtain ⟨st', hrun, hfs, hctr, hpctr, hmono, hexecs, hexecmem, hremmem,
      hcc, hcr⟩ := ih (names ctr) fs0 (ctr + 1) pc
        (evs ++ [Ev.create (names ctr), Ev.remove (names ctr),
          Ev.exec (spliceFf s ffc) false (names ctr) (prev :: fs0),
          Ev.remove prev]) hinj2 hfresh2 hfmt2
    have hout : scratchOut names (names ctr) (ctr + 1) rest.length =
        scratchOut names prev ctr (rest.length + 1) := by
      unfold scratchOut
      cases hl : rest.length with
      | zero => simp
      | succ m =>
        simp only [Nat.succ_ne_zero, if_false]
        congr 1
        omega
    refine ⟨st', ?_, ?_, ?_, hpctr, ?_, ?_, ?_, ?_, ?_, ?_⟩
    · rw [hstep, hrun, hout]
    · rw [hfs, hout]
    · rw [hctr]
      omega
    · intro e he
      exact hmono e (by simp [he])
    · rw [hexecs]
      simp only [execTriples, List.filterMap_append]
      simp only [execTriples] at hexecs ⊢
      simp [scratchTriples, hs, List.append_assoc]
    · intro c2 sh o pre he
      rcases hexecmem c2 sh o pre he with hin | hfalse
      · simp only [List.mem_append, List.mem_cons, List.not_mem_nil,
          or_false] at hin
        rcases hin with hin | hin | hin | hin | hin
        · exact Or.inl hin
        · exact absurd hin (by simp)
        · exact absurd hin (by simp)
        · rw [Ev.exec.injEq] at hin
          refine Or.inr ⟨hin.2.1, ?_⟩
          rw [hin.2.2.1, hin.2.2.2]
          exact hnotin
        · exact absurd hin (by simp)
      · exact Or.inr hfalse
    · intro p hp
      rcases hremmem p hp with hin | hprev | hj
      · simp only [List.mem_append, List.mem_cons, List.not_mem_nil,
          or_false] at hin
        rcases hin with hin | hin | hin | hin | hin
        · exact Or.inl hin
        · exact absurd hin (by simp)
        · rw [Ev.remove.injEq] at hin
          exact Or.inr (Or.inr ⟨ctr, le_refl _, by omega, hin⟩)
        · exact absurd hin (by simp)
        · rw [Ev.remove.injEq] at hin
          exact Or.inr (Or.inl hin)
      · exact Or.inr (Or.inr ⟨ctr, le_refl _, by omega, hprev⟩)
      · obtain ⟨j, hj1, hj2, hj3⟩ := hj
        exact Or.inr (Or.inr ⟨j, by omega, by omega, hj3⟩)
    · have hone : createCount (evs ++ [Ev.create (names ctr),
          Ev.remove (names ctr),
          Ev.exec (spliceFf s ffc) false (names ctr) (prev :: fs0),
          Ev.remove prev]) = createCount evs + 1 := by
        simp [createCount, List.filter_append]
      rw [hcc, hone]
      omega
    · intro j h1 h2
      rcases Nat.eq_or_lt_of_le h1 with heq | hlt
      · refine ⟨hmono _ (by simp [← heq]), hmono _ (by simp [← heq])⟩
      · exact hcr j (by omega) (by omega)

/-- The interactive collision loop touches no files: it only prints and
prompts, its result is a path with no existing file, that path is the
derived one when there was no collision, and otherwise it is a prompted
response with its extension stripped and `.temp.flac` appended. -/
lemma collisionLoop_evs (inp : ℕ → String) :
    ∀ (fuel : ℕ) (cur : String) (st : St) (out : String) (st' : St),
      collisionLoop inp fuel cur st = some (out, st') →
      st'.fs = st.fs ∧ st'.ctr = st.ctr ∧ out ∉ st.fs ∧
      (∀ e, e ∈ st'.evs → e ∈ st.evs ∨ (∃ m, e = Ev.note m) ∨
        ∃ m r, e = Ev.prompt m r) ∧
      (∀ e, e ∈ st.evs → e ∈ st'.evs) ∧
      (isfile st cur = false → st' = st ∧ out = cur) ∧
      (isfile st cur = true → ∃ k, st.pctr ≤ k ∧ out = altPath (inp k)) := by
  intro fuel
  induction fuel with
  | zero =>
    intro cur st out st' hrun
    by_cases hc : isfile st cur
    · simp [collisionLoop, hc] at hrun
    · simp only [collisionLoop, hc, Bool.false_eq_true, if_false,
        Option.some.injEq, Prod.mk.injEq] at hrun
      obtain ⟨h1, h2⟩ := hrun
      subst h1; subst h2
      refine ⟨rfl, rfl, ?_, fun e he => Or.inl he, fun e he => he,
        fun _ => ⟨rfl, rfl⟩, fun hcc => ?_⟩
      · simpa [isfile] using hc
      · exact absurd hcc (by simp [hc])
  | succ fuel ih =>
    intro cur st out st' hrun
    by_cases hc : isfile st cur
    · simp only [collisionLoop, hc, if_true] at hrun
      have hrec := ih (altPath (inp st.pctr))
        ⟨st.fs, st.ctr, st.pctr + 1,
          st.evs ++ [Ev.note (collisionMsg cur),
            Ev.prompt newPathPrompt (inp st.pctr)]⟩ out st'
        (by simpa [noteF, promptF] using hrun)
      obtain ⟨h1, h2, h3, h4, h5, h6, h7⟩ := hrec
      refine ⟨h1, h2, h3, ?_, ?_, ?_, ?_⟩
      · intro e he
        rcases h4 e he with he2 | hn | hp
        · simp only [List.mem_append, List.mem_cons, List.not_mem_nil,
            or_false] at he2
          rcases he2 with he2 | he2 | he2
          · exact Or.inl he2
          · exact Or.inr (Or.inl ⟨collisionMsg cur, he2⟩)
          · exact Or.inr (Or.inr ⟨newPathPrompt, inp st.pctr, he2⟩)
        · exact Or.inr (Or.inl hn)
        · exact Or.inr (Or.inr hp)
      · intro e he
        exact h5 e (by simp [he])
      · intro hcf
        exact absurd hc (by simp [hcf])
      · intro _
        by_cases hc2 : isfile (⟨st.fs, st.ctr, st.pctr + 1,
            st.evs ++ [Ev.note (collisionMsg cur),
              Ev.prompt newPathPrompt (inp st.pctr)]⟩ : St)
            (altPath (inp st.pctr))
        · obtain ⟨k, hk1, hk2⟩ := h7 hc2
          have hk1b : st.pctr + 1 ≤ k := hk1
          exact ⟨k, by omega, hk2⟩
        · obtain ⟨_, ho⟩ := h6 (by simpa using hc2)
          exact ⟨st.pctr, le_refl _, ho⟩
    · simp only [collisionLoop, hc, Bool.false_eq_true, if_false,
        Option.some.injEq, Prod.mk.injEq] at hrun
      obtain ⟨h1, h2⟩ := hrun
      subst h1; subst h2
      refine ⟨rfl, rfl, ?_, fun e he => Or.inl he, fun e he => he,
        fun _ => ⟨rfl, rfl⟩, fun hcc => ?_⟩
      · simpa [isfile] using hc
      · exact absurd hcc (by simp [hc])

/-- Generic facts about any successful keep-mode run (interactive or not):
the trace only grows, the filesystem stays duplicate-free, and every newly
executed command runs with `shell = false`, writes a path absent at
invocation time, and is the tool-name splice of a substituted template. -/
lemma keepLoop_general (inp? : Option (ℕ → String)) (ffc stem : String)
    (fuel : ℕ) :
    ∀ (rest : List String) (i : ℕ) (prev : String) (st : St) (out : String)
      (st' : St),
      keepLoop inp? ffc stem fuel rest i prev st = some (out, st') →
      st.fs.Nodup →
      (∀ e, e ∈ st.evs → e ∈ st'.evs) ∧ st'.fs.Nodup ∧
      (∀ c sh o pre, Ev.exec c sh o pre ∈ st'.evs →
        Ev.exec c sh o pre ∈ st.evs ∨
          (sh = false ∧ o ∉ pre ∧
            ∃ t a b, t ∈ rest ∧
              c = spliceFf ((pyFormat t a b).getD "") ffc)) := by
  intro rest
  induction rest with
  | nil =>
    intro i prev st out st' hrun hnd
    simp only [keepLoop, Option.some.injEq, Prod.mk.injEq] at hrun
    obtain ⟨h1, h2⟩ := hrun
    subst h2
    exact ⟨fun e he => he, hnd, fun c sh o pre he => Or.inl he⟩
  | cons c rest ih =>
    intro i prev st out st' hrun hnd
    simp only [keepLoop] at hrun
    rcases hinp : inp? with _ | inp
    · subst hinp
      simp only at hrun
      set derived := stem ++ "_temp_" ++ toString i ++ ".flac" with hder
      set stA := if isfile st derived then rmF st derived else st with hstA
      have hndA : stA.fs.Nodup := by
        rw [hstA]
        by_cases hc : isfile st derived
        · simp only [hc, if_true, rmF]
          exact hnd.erase derived
        · simpa [hc] using hnd
      have hderA : derived ∉ stA.fs := by
        rw [hstA]
        by_cases hc : isfile st derived
        · simp only [hc, if_true, rmF]
          exact hnd.not_mem_erase
        · simp only [hc, Bool.false_eq_true, if_false]
          simpa [isfile] using hc
      have hevsA : stA.evs = st.evs ∨ stA.evs = st.evs ++ [Ev.remove derived] := by
        rw [hstA]
        by_cases hc : isfile st derived
        · simp [hc, rmF]
        · simp [hc]
      cases hfm : pyFormat c prev derived with
      | none => rw [hfm] at hrun; exact absurd hrun (by simp)
      | some s =>
        rw [hfm] at hrun
        simp only at hrun
        have hndB : (runCmd stA (spliceFf s ffc) false derived).fs.Nodup := by
          simp only [runCmd]
          rw [if_neg (by simpa [isfile] using hderA)]
          exact List.Nodup.cons hderA hndA
        obtain ⟨hmono, hnd', hexec⟩ := ih (i + 1) derived
          (runCmd stA (spliceFf s ffc) false derived) out st' hrun hndB
        refine ⟨?_, hnd', ?_⟩
        · intro e he
          refine hmono e ?_
          simp only [runCmd, List.mem_append]
          left
          rcases hevsA with h | h <;> simp [h, he]
        · intro c2 sh o pre he
          rcases hexec c2 sh o pre he with hin | ⟨hsh, hop, t, a, b, ht, hc2⟩
          · simp only [runCmd, List.mem_append, List.mem_cons,
              List.not_mem_nil, or_false] at hin
            rcases hin with hin | hin
            · rcases hevsA with h | h
              · rw [h] at hin
                exact Or.inl hin
              · rw [h] at hin
                simp only [List.mem_append, List.mem_cons,
                  List.not_mem_nil, or_false] at hin
                rcases hin with hin | hin
                · exact Or.inl hin
                · exact absurd hin (by simp)
            · rw [Ev.exec.injEq] at hin
              refine Or.inr ⟨hin.2.1, ?_, c, prev, derived, by simp, ?_⟩
              · rw [hin.2.2.1, hin.2.2.2]
                simpa [isfile] using hderA
              · rw [hin.1, hfm]
                rfl
          · exact Or.inr ⟨hsh, hop, t, a, b, by simp [ht], hc2⟩
    · subst hinp
      simp only at hrun
      cases hcl : collisionLoop inp fuel
          (stem ++ "_temp_" ++ toString i ++ ".flac") st with
      | none => rw [hcl] at hrun; exact absurd hrun (by simp)
      | some res =>
        obtain ⟨o1, stA⟩ := res
        rw [hcl] at hrun
        simp only at hrun
        obtain ⟨hfsA, _, ho1, hextA, hmonoA, _, _⟩ :=
          collisionLoop_evs inp fuel _ st o1 stA hcl
        cases hfm : pyFormat c prev o1 with
        | none => rw [hfm] at hrun; exact absurd hrun (by simp)
        | some s =>
          rw [hfm] at hrun
          simp only at hrun
          have ho1A : o1 ∉ stA.fs := by rw [hfsA]; exact ho1
          have hndB : (runCmd stA (spliceFf s ffc) false o1).fs.Nodup := by
            simp only [runCmd]
            rw [if_neg (by simpa [isfile] using ho1A)]
            refine List.Nodup.cons ho1A ?_
            rw [hfsA]
            exact hnd
          obtain ⟨hmono, hnd', hexec⟩ := ih (i + 1) o1
            (runCmd stA (spliceFf s ffc) false o1) out st' hrun hndB
          refine ⟨?_, hnd', ?_⟩
          · intro e he
            refine hmono e ?_
            simp only [runCmd, List.mem_append]
            exact Or.inl (hmonoA e he)
          · intro c2 sh o pre he
            rcases hexec c2 sh o pre he with hin | ⟨hsh, hop, t, a, b, ht, hc2⟩
            · simp only [runCmd, List.mem_append, List.mem_cons,
                List.not_mem_nil, or_false] at hin
              rcases hin with hin | hin
              · rcases hextA _ hin with h | ⟨m, hm⟩ | ⟨m, r, hm⟩
                · exact Or.inl h
                · exact absurd hm (by simp)
                · exact absurd hm (by simp)
              · rw [Ev.exec.injEq] at hin
                refine Or.inr ⟨hin.2.1, ?_, c, prev, o1, by simp, ?_⟩
                · rw [hin.2.2.1, hin.2.2.2]
                  exact ho1A
                · rw [hin.1, hfm]
                  rfl
            · exact Or.inr ⟨hsh, hop, t, a, b, by simp [ht], hc2⟩

/-- Characterization of the non-interactive keep-mode loop: it succeeds,
every stage writes the derived deterministic name
`<stem>_temp_<index>.flac` through a spliced command, removals only hit
derived names, and a pre-existing file at the first derived name is
removed. -/
lemma keepLoop_none_spec (ffc stem : String) (fuel : ℕ) :
    ∀ (rest : List String) (i : ℕ) (prev : String) (st : St),
      st.fs.Nodup →
      (∀ t, t ∈ rest → fmtOk t = true) →
      ∃ st',
        keepLoop none ffc stem fuel rest i prev st =
          some (keepOutNone stem i prev rest.length, st') ∧
        execTriples st'.evs =
          execTriples st.evs ++ keepTriples ffc stem rest i prev ∧
        (∀ e, e ∈ st.evs → e ∈ st'.evs) ∧
        st'.pctr = st.pctr ∧
        (∀ p, Ev.remove p ∈ st'.evs → Ev.remove p ∈ st.evs ∨
          ∃ k, k < rest.length ∧
            p = stem ++ "_temp_" ++ toString (i + k) ++ ".flac") ∧
        (rest ≠ [] →
          isfile st (stem ++ "_temp_" ++ toString i ++ ".flac") = true →
          Ev.remove (stem ++ "_temp_" ++ toString i ++ ".flac") ∈ st'.evs) := by
  intro rest
  induction rest with
  | nil =>
    intro i prev st hnd _
    refine ⟨st, by simp [keepLoop, keepOutNone], by simp [keepTriples],
      fun e he => he, rfl, fun p hp => Or.inl hp, by simp⟩
  | cons c rest ih =>
    intro i prev st hnd hfmt
    set derived := stem ++ "_temp_" ++ toString i ++ ".flac" with hder
    obtain ⟨s, hs⟩ := pyFormat_some c prev derived (hfmt c (by simp))
    set stA := if isfile st derived then rmF st derived else st with hstA
    have hndA : stA.fs.Nodup := by
      rw [hstA]
      by_cases hc : isfile st derived
      · simp only [hc, if_true, rmF]
        exact hnd.erase derived
      · simpa [hc] using hnd
    have hderA : derived ∉ stA.fs := by
      rw [hstA]
      by_cases hc : isfile st derived
      · simp only [hc, if_true, rmF]
        exact hnd.not_mem_erase
      · simp only [hc, Bool.false_eq_true, if_false]
        simpa [isfile] using hc
    have hpA : stA.pctr = st.pctr := by
      rw [hstA]
      by_cases hc : isfile st derived <;> simp [hc, rmF]
    have hevsA : stA.evs = st.evs ∨
        stA.evs = st.evs ++ [Ev.remove derived] := by
      rw [hstA]
      by_cases hc : isfile st derived
      · simp [hc, rmF]
      · simp [hc]
    set stB := runCmd stA (spliceFf s ffc) false derived with hstB
    have hndB : stB.fs.Nodup := by
      rw [hstB]
      simp only [runCmd]
      rw [if_neg (by simpa [isfile] using hderA)]
      exact List.Nodup.cons hderA hndA
    obtain ⟨st', hrun, hexecs, hmono, hpctr, hrem, _⟩ :=
      ih (i + 1) derived stB hndB (fun t ht => hfmt t (by simp [ht]))
    have hout : keepOutNone stem (i + 1) derived rest.length =
        keepOutNone stem i prev (rest.length + 1) := by
      unfold keepOutNone
      cases hl : rest.length with
      | zero => simp [hder]
      | succ m =>
        have harith : i + 1 + (m + 1) - 1 = i + (m + 1 + 1) - 1 := by omega
        simp [harith]
    have hone : keepLoop none ffc stem fuel (c :: rest) i prev st =
        keepLoop none ffc stem fuel rest (i + 1) derived stB := by
      simp only [keepLoop, hs]
    refine ⟨st', ?_, ?_, ?_, ?_, ?_, ?_⟩
    · rw [hone, hrun, List.length_cons, hout]
    · rw [hexecs]
      have hB : execTriples stB.evs =
          execTriples st.evs ++ [(spliceFf s ffc, false, derived)] := by
        rw [hstB]
        simp only [runCmd]
        rcases hevsA with h | h <;>
          simp [execTriples, h, List.filterMap_append]
      rw [hB]
      simp only [keepTriples, hs, Option.getD_some, List.append_assoc,
        List.cons_append, List.nil_append]
    · intro e he
      refine hmono e ?_
      rw [hstB]
      simp only [runCmd, List.mem_append]
      left
      rcases hevsA with h | h <;> simp [h, he]
    · rw [hpctr, hstB]
      simp only [runCmd]
      exact hpA
    · intro p hp
      rcases hrem p hp with hin | ⟨k, hk1, hk2⟩
      · rw [hstB] at hin
        simp only [runCmd, List.mem_append, List.mem_cons,
          List.not_mem_nil, or_false] at hin
        rcases hin with hin | hin
        · rcases hevsA with h | h
          · rw [h] at hin
            exact Or.inl hin
          · rw [h] at hin
            simp only [List.mem_append, List.mem_cons, List.not_mem_nil,
              or_false] at hin
            rcases hin with hin | hin
            · exact Or.inl hin
            · rw [Ev.remove.injEq] at hin
              exact Or.inr ⟨0, by simp, by simpa [hder] using hin⟩
        · exact absurd hin (by simp)
      · refine Or.inr ⟨k + 1, by simp [hk1], ?_⟩
        have harith : i + 1 + k = i + (k + 1) := by omega
        rw [hk2, harith]
    · intro _ hc
      refine hmono _ ?_
      rw [hstB]
      simp only [runCmd, List.mem_append]
      left
      rcases hevsA with h | h
      · exact absurd hc (by
          rw [hstA, if_pos hc, rmF] at h
          exact absurd (congrArg List.length h) (by simp))
      · rw [h]
        simp

/-- Top-level characterization of a scratch-mode `audio_pre_prcs` run with
stage templates `c0 :: rest` (allocator fresh and injective on the names it
will hand out, all templates well formed). -/
lemma audio_scratch_spec (names : ℕ → String) (dflt : List String)
    (filename c0 : String) (rest : List String) (inp : Option (ℕ → String))
    (ffc : String) (fuel : ℕ) (fs0 : List String) (ct pc : ℕ)
    (hinj : ∀ j k, ct ≤ j → j < ct + rest.length + 1 → ct ≤ k →
      k < ct + rest.length + 1 → names j = names k → j = k)
    (hfresh : ∀ j, ct ≤ j → j < ct + rest.length + 1 →
      names j ∉ fs0 ∧ names j ≠ filename)
    (hfmt : ∀ t, t ∈ c0 :: rest → fmtOk t = true) :
    ∃ st',
      audio_pre_prcs names dflt filename false (c0 :: rest) inp ffc fuel
        ⟨fs0, ct, pc, []⟩ = some (names (ct + rest.length), st') ∧
      st'.fs = names (ct + rest.length) :: fs0 ∧
      st'.ctr = ct + rest.length + 1 ∧
      st'.pctr = pc ∧
      execTriples st'.evs =
        ((pyFormat c0 filename (names ct)).getD "", false, names ct) ::
          scratchTriples names ffc rest (names ct) (ct + 1) ∧
      (∀ c sh o pre, Ev.exec c sh o pre ∈ st'.evs → sh = false ∧ o ∉ pre) ∧
      (∀ p, Ev.remove p ∈ st'.evs →
        ∃ j, ct ≤ j ∧ j ≤ ct + rest.length ∧ p = names j) ∧
      createCount st'.evs = rest.length + 1 ∧
      (∀ j, ct ≤ j → j ≤ ct + rest.length →
        Ev.create (names j) ∈ st'.evs ∧ Ev.remove (names j) ∈ st'.evs) := by
  obtain ⟨s0, hs0⟩ := pyFormat_some c0 filename (names ct) (hfmt c0 (by simp))
  have hfr := hfresh ct (le_refl _) (by omega)
  have hstep : audio_pre_prcs names dflt filename false (c0 :: rest) inp ffc
      fuel ⟨fs0, ct, pc, []⟩ =
      scratchLoop names ffc rest (names ct)
        ⟨names ct :: fs0, ct + 1, pc,
          [Ev.create (names ct), Ev.remove (names ct),
            Ev.exec s0 false (names ct) fs0]⟩ := by
    simp only [audio_pre_prcs, scratchStage, mkTempF, isfile, rmF, runCmd, hs0]
    simp [hfr.1, hs0]
  obtain ⟨st', hrun, hfs, hctr, hpctr, hmono, hexecs, hexecmem, hremmem,
    hcc, hcr⟩ :=
    scratchLoop_spec names ffc rest (names ct) fs0 (ct + 1) pc
      [Ev.create (names ct), Ev.remove (names ct),
        Ev.exec s0 false (names ct) fs0]
      (fun j k h1 h2 h3 h4 he =>
        hinj j k (by omega) (by omega) (by omega) (by omega) he)
      (fun j h1 h2 => ⟨(hfresh j (by omega) (by omega)).1, fun he => by
        have := hinj j ct (by omega) (by omega) (by omega) (by omega) he
        omega⟩)
      (fun t ht => hfmt t (by simp [ht]))
  have hso : scratchOut names (names ct) (ct + 1) rest.length =
      names (ct + rest.length) := by
    unfold scratchOut
    cases hl : rest.length with
    | zero => simp
    | succ m =>
      simp only [Nat.succ_ne_zero, if_false]
      congr 1
      omega
  refine ⟨st', ?_, ?_, by rw [hctr]; omega, hpctr, ?_, ?_, ?_, ?_, ?_⟩
  · rw [hstep, hrun, hso]
  · rw [hfs, hso]
  · rw [hexecs, hs0]
    rfl
  · intro c sh o pre he
    rcases hexecmem c sh o pre he with hin | hp
    · simp only [List.mem_cons, List.not_mem_nil, or_false] at hin
      rcases hin with hin | hin | hin
      · exact absurd hin (by simp)
      · exact absurd hin (by simp)
      · rw [Ev.exec.injEq] at hin
        refine ⟨hin.2.1, ?_⟩
        rw [hin.2.2.1, hin.2.2.2]
        exact hfr.1
    · exact hp
  · intro p hp
    rcases hremmem p hp with hin | hprev | ⟨j, hj1, hj2, hj3⟩
    · simp only [List.mem_cons, List.not_mem_nil, or_false] at hin
      rcases hin with hin | hin | hin
      · exact absurd hin (by simp)
      · rw [Ev.remove.injEq] at hin
        exact ⟨ct, le_refl _, by omega, hin⟩
      · exact absurd hin (by simp)
    · exact ⟨ct, le_refl _, by omega, hprev⟩
    · exact ⟨j, by omega, by omega, hj3⟩
  · have hone : createCount [Ev.create (names ct), Ev.remove (names ct),
        Ev.exec s0 false (names ct) fs0] = 1 := rfl
    rw [hcc, hone]
    omega
  · intro j h1 h2
    rcases Nat.eq_or_lt_of_le h1 with heq | hlt
    · exact ⟨hmono _ (by simp [← heq]), hmono _ (by simp [← heq])⟩
    · exact hcr j (by omega) (by omega)

/-- Injectivity stated on offsets (a decidable form) gives injectivity on
the absolute range. -/
lemma shift_inj (names : ℕ → String) (ct n : ℕ)
    (h : ∀ j, j < n → ∀ k, k < n → names (ct + j) = names (ct + k) → j = k) :
    ∀ j k, ct ≤ j → j < ct + n → ct ≤ k → k < ct + n →
      names j = names k → j = k := by
  intro j k h1 h2 h3 h4 he
  have hj : ct + (j - ct) = j := by omega
  have hk : ct + (k - ct) = k := by omega
  have := h (j - ct) (by omega) (k - ct) (by omega) (by rw [hj, hk]; exact he)
  omega

/-- Freshness stated on offsets gives freshness on the absolute range. -/
lemma shift_fresh (names : ℕ → String) (ct n : ℕ) (fs0 : List String)
    (filename : String)
    (h : ∀ j, j < n → names (ct + j) ∉ fs0 ∧ names (ct + j) ≠ filename) :
    ∀ j, ct ≤ j → j < ct + n → names j ∉ fs0 ∧ names j ≠ filename := by
  intro j h1 h2
  have hj : ct + (j - ct) = j := by omega
  have := h (j - ct) (by omega)
  rwa [hj] at this

lemma scratchTriples_length (names : ℕ → String) (ffc : String) :
    ∀ (rest : List String) (prev : String) (ctr : ℕ),
      (scratchTriples names ffc rest prev ctr).length = rest.length := by
  intro rest
  induction rest with
  | nil => intro prev ctr; rfl
  | cons c rest ih =>
    intro prev ctr
    simp [scratchTriples, ih]

/-- Every command the scratch-mode tail loop executes runs with
`shell = false`, whatever the starting state (no freshness needed). -/
lemma scratchLoop_sh (names : ℕ → String) (ffc : String) :
    ∀ (rest : List String) (prev : String) (st : St) (out : String)
      (st' : St),
      scratchLoop names ffc rest prev st = some (out, st') →
      ∀ c sh o pre, Ev.exec c sh o pre ∈ st'.evs →
        Ev.exec c sh o pre ∈ st.evs ∨ sh = false := by
  intro rest
  induction rest with
  | nil =>
    intro prev st out st' hrun c sh o pre he
    simp only [scratchLoop, Option.some.injEq, Prod.mk.injEq] at hrun
    rw [← hrun.2] at he
    exact Or.inl he
  | cons c0 rest ih =>
    intro prev st out st' hrun c sh o pre he
    simp only [scratchLoop, scratchStage, mkTempF, isfile] at hrun
    rw [if_pos (by simp)] at hrun
    cases hfm : pyFormat c0 prev (names st.ctr) with
    | none => rw [hfm] at hrun; exact absurd hrun (by simp)
    | some s =>
      rw [hfm] at hrun
      simp only [rmF, runCmd] at hrun
      rcases ih _ _ _ _ hrun c sh o pre he with hin | hsh
      · simp only [List.mem_append, List.mem_cons, List.not_mem_nil,
          or_false] at hin
        rcases hin with ((((hin | hin) | hin) | hin) | hin)
        · exact Or.inl hin
        · exact absurd hin (by simp)
        · exact absurd hin (by simp)
        · rw [Ev.exec.injEq] at hin
          exact Or.inr hin.2.1
        · exact absurd hin (by simp)
      · exact Or.inr hsh

/-! ## Theorems about `ffprobe_get_fps` (claims C1 and C6) -/

/-- C1: the claim says that a successful prober invocation whose raw output
holds exactly two integers (such as `b"30000/1001\n"`) makes
`ffprobe_get_fps` return the first divided by the second. The code cannot:
`len(list(num_list))` exhausts the Python 3 `map` iterator and a `map`
object is not subscriptable, so `float(num_list[0])` raises an uncaught
`TypeError` instead of producing 30000/1001, whatever the interactive
capability is. -/
theorem c1_two_ints_raises_typeError (input_m : Option (String → String)) :
    ffprobe_get_fps (Except.ok "30000/1001\n") input_m =
      ProbeOutcome.typeError := rfl

/-- C6: whenever the prober invocation fails or its output does not hold
exactly two integers, `ffprobe_get_fps` propagates nothing: without an
interactive capability it returns 0; with one it returns the prompted
value when it parses as a positive float, and 0 when the entry is
unparsable or non-positive. -/
theorem c6_failure_is_recovered (probe : Except Unit String)
    (f : String → String) (h : probeTwoInts probe = false) :
    ffprobe_get_fps probe none = ProbeOutcome.ret 0 ∧
    (pyFloat (f fpsPrompt) = none →
      ffprobe_get_fps probe (some f) = ProbeOutcome.ret 0) ∧
    (∀ v, pyFloat (f fpsPrompt) = some v → 0 < v →
      ffprobe_get_fps probe (some f) = ProbeOutcome.ret v) ∧
    (∀ v, pyFloat (f fpsPrompt) = some v → v ≤ 0 →
      ffprobe_get_fps probe (some f) = ProbeOutcome.ret 0) := by
  cases probe with
  | error u =>
    refine ⟨rfl, ?_, ?_, ?_⟩
    · intro hn
      simp [ffprobe_get_fps, hn]
    · intro v hv hpos
      simp [ffprobe_get_fps, hv, not_le.mpr hpos]
    · intro v hv hle
      simp [ffprobe_get_fps, hv, hle]
  | ok out =>
    have hne : ¬ (digitGroups out.data).length = 2 := by
      simpa [probeTwoInts, List.length_map] using h
    refine ⟨?_, ?_, ?_, ?_⟩
    · simp [ffprobe_get_fps, hne]
    · intro hn
      simp [ffprobe_get_fps, hne, hn]
    · intro v hv hpos
      simp [ffprobe_get_fps, hne, hv, not_le.mpr hpos]
    · intro v hv hle
      simp [ffprobe_get_fps, hne, hv, hle]

theorem c6_failure_is_recovered_witness :
    probeTwoInts (Except.ok "garbage") = false ∧
    ffprobe_get_fps (Except.ok "garbage") (some fun _ => "25") =
      ProbeOutcome.ret 25 :=
  ⟨by decide,
    (c6_failure_is_recovered (Except.ok "garbage") (fun _ => "25")
        (by decide)).2.2.1 25 (by decide) (by decide)⟩

/-! ## Theorems about `SplitIntoFLACPiece` (claims C7 and C8) -/

/-- C7: for a region `(s, e)` with `s ≥ 0`, the seek position handed to the
converter is `max(0, s/1000 - include_before)` and the duration is
`(e/1000 + include_after)` minus that seek position; both paddings default
to 0.25 seconds. -/
theorem c7_region_padding (cfg : SplitIntoFLACPiece) (s e : ℤ)
    (_h : 0 ≤ s) :
    (splitReq cfg (s, e)).seek =
      max 0 ((s : ℚ) / 1000 - cfg.include_before) ∧
    (splitReq cfg (s, e)).dur =
      ((e : ℚ) / 1000 + cfg.include_after) -
        max 0 ((s : ℚ) / 1000 - cfg.include_before) ∧
    ({ source_path := "" } : SplitIntoFLACPiece).include_before = 0.25 ∧
    ({ source_path := "" } : SplitIntoFLACPiece).include_after = 0.25 :=
  ⟨rfl, rfl, rfl, rfl⟩

theorem c7_region_padding_witness :
    (0 : ℤ) ≤ 1000 ∧
    ((splitReq { source_path := "a" } (1000, 2000)).seek =
        max 0 ((1000 : ℚ) / 1000 -
          ({ source_path := "a" } : SplitIntoFLACPiece).include_before) ∧
      (splitReq { source_path := "a" } (1000, 2000)).dur =
        ((2000 : ℚ) / 1000 +
            ({ source_path := "a" } : SplitIntoFLACPiece).include_after) -
          max 0 ((1000 : ℚ) / 1000 -
            ({ source_path := "a" } : SplitIntoFLACPiece).include_before) ∧
      ({ source_path := "" } : SplitIntoFLACPiece).include_before = 0.25 ∧
      ({ source_path := "" } : SplitIntoFLACPiece).include_after = 0.25) :=
  ⟨by decide, c7_region_padding { source_path := "a" } 1000 2000 (by decide)⟩

/-- C8: a cancellation interrupt during `SplitIntoFLACPiece.__call__`
yields `None`; it is the only swallowed condition — every other invocation
failure propagates, and a success returns the read bytes. -/
theorem c8_only_interrupt_swallowed (cfg : SplitIntoFLACPiece) (r : ℤ × ℤ)
    (e : ExcKind) (h : e ≠ ExcKind.keyboardInterrupt) :
    splitCall cfg r (Except.error ExcKind.keyboardInterrupt) =
      CallResult.cancelled ∧
    splitCall cfg r (Except.error e) = CallResult.raised e ∧
    ∀ bs, splitCall cfg r (Except.ok bs) = CallResult.data bs := by
  refine ⟨rfl, ?_, fun bs => rfl⟩
  cases e with
  | keyboardInterrupt => exact absurd rfl h
  | calledProcessError => rfl
  | osError => rfl

theorem c8_only_interrupt_swallowed_witness :
    ExcKind.calledProcessError ≠ ExcKind.keyboardInterrupt ∧
    (splitCall { source_path := "a" } (0, 0)
        (Except.error ExcKind.keyboardInterrupt) = CallResult.cancelled ∧
      splitCall { source_path := "a" } (0, 0)
          (Except.error ExcKind.calledProcessError) =
        CallResult.raised ExcKind.calledProcessError ∧
      ∀ bs, splitCall { source_path := "a" } (0, 0) (Except.ok bs) =
        CallResult.data bs) :=
  ⟨by decide,
    c8_only_interrupt_swallowed { source_path := "a" } (0, 0)
      ExcKind.calledProcessError (by decide)⟩

/-! ## Theorems about `which_exe` (claim C9) -/

lemma whichGo_some_iff (isFile canExec : String → Bool) (name p : String) :
    ∀ l : List String,
      (whichGo isFile canExec name l = some p ↔
        ∃ i, i < l.length ∧ p = pathJoin (pyStrip '"' (l.getD i "")) name ∧
          is_exe isFile canExec p = true ∧
          ∀ j, j < i →
            is_exe isFile canExec (pathJoin (pyStrip '"' (l.getD j "")) name) =
              false) := by
  intro l
  induction l with
  | nil => simp [whichGo]
  | cons d rest ih =>
    by_cases hd : is_exe isFile canExec (pathJoin (pyStrip '"' d) name) = true
    · constructor
      · intro hw
        refine ⟨0, by simp, ?_, ?_, by simp⟩
        · simp only [whichGo, hd, if_true] at hw
          exact (Option.some_injective _ hw).symm
        · simp only [whichGo, hd, if_true] at hw
          rw [← Option.some_injective _ hw]
          simpa using hd
      · rintro ⟨i, hi, hp, hex, hmin⟩
        cases i with
        | zero =>
          simp only [whichGo, hd, if_true]
          simp only [List.getD_cons_zero] at hp
          rw [hp]
        | succ i' =>
          have := hmin 0 (Nat.succ_pos i')
          simp only [List.getD_cons_zero] at this
          rw [this] at hd
          exact absurd hd (by simp)
    · have hd' : is_exe isFile canExec (pathJoin (pyStrip '"' d) name) = false :=
        by simpa using hd
      constructor
      · intro hw
        simp only [whichGo, hd', if_neg] at hw
        rw [if_neg (by simp [hd'])] at hw
        obtain ⟨i, hi, hp, hex, hmin⟩ := (ih).mp hw
        refine ⟨i + 1, by simpa using hi, by simpa using hp, hex, ?_⟩
        intro j hj
        cases j with
        | zero => simpa using hd'
        | succ j' =>
          have := hmin j' (Nat.lt_of_succ_lt_succ hj)
          simpa using this
      · rintro ⟨i, hi, hp, hex, hmin⟩
        cases i with
        | zero =>
          simp only [List.getD_cons_zero] at hp
          rw [hp] at hex
          rw [hex] at hd'
          exact absurd hd' (by simp)
        | succ i' =>
          have hrest : whichGo isFile canExec name rest = some p := by
            refine (ih).mpr ⟨i', by simpa using hi, by simpa using hp, hex, ?_⟩
            intro j hj
            have := hmin (j + 1) (Nat.succ_lt_succ hj)
            simpa using this
          simp only [whichGo]
          rw [if_neg (by simp [hd'])]
          exact hrest

/-- C9: a program name containing a path separator resolves exactly when
that path itself is an executable file (the search path is never
consulted); a bare name resolves to the first search-path directory whose
joined candidate is an executable file, in order, and to an absent result
when no directory matches. The embedding is a pure function of its
read-only filesystem capabilities. -/
theorem c9_which_exe_resolution (isFile canExec : String → Bool)
    (pathEnv name : String) :
    ((osSplitL name.data).1 ≠ [] →
      which_exe isFile canExec pathEnv name =
        (if is_exe isFile canExec name then some name else none)) ∧
    ((osSplitL name.data).1 = [] →
      ∀ p, which_exe isFile canExec pathEnv name = some p ↔
        ∃ i, i < (pathDirs pathEnv).length ∧ p = candidate pathEnv name i ∧
          is_exe isFile canExec p = true ∧
          ∀ j, j < i →
            is_exe isFile canExec (candidate pathEnv name j) = false) ∧
    ((osSplitL name.data).1 = [] →
      (∀ i, i < (pathDirs pathEnv).length →
        is_exe isFile canExec (candidate pathEnv name i) = false) →
      which_exe isFile canExec pathEnv name = none) := by
  refine ⟨?_, ?_, ?_⟩
  · intro h
    simp [which_exe, h]
  · intro h p
    have : which_exe isFile canExec pathEnv name =
        whichGo isFile canExec name (pySplit ':' pathEnv) := by
      simp [which_exe, h]
    rw [this]
    exact whichGo_some_iff isFile canExec name p (pySplit ':' pathEnv)
  · intro h hall
    cases hw : which_exe isFile canExec pathEnv name with
    | none => rfl
    | some p =>
      have : which_exe isFile canExec pathEnv name =
          whichGo isFile canExec name (pySplit ':' pathEnv) := by
        simp [which_exe, h]
      rw [this] at hw
      obtain ⟨i, hi, hp, hex, _⟩ :=
        (whichGo_some_iff isFile canExec name p (pySplit ':' pathEnv)).mp hw
      have hf := hall i hi
      simp only [candidate, pathDirs] at hf
      rw [← hp] at hf
      rw [hex] at hf
      exact absurd hf (by simp)

theorem c9_which_exe_resolution_witness :
    ((osSplitL "ffmpeg".data).1 = [] ∧
      (which_exe (fun p => p == "/usr/bin/ffmpeg")
          (fun p => p == "/usr/bin/ffmpeg") "/sbin:/usr/bin" "ffmpeg" =
            some "/usr/bin/ffmpeg" ↔
        ∃ i, i < (pathDirs "/sbin:/usr/bin").length ∧
          "/usr/bin/ffmpeg" = candidate "/sbin:/usr/bin" "ffmpeg" i ∧
          is_exe (fun p => p == "/usr/bin/ffmpeg")
            (fun p => p == "/usr/bin/ffmpeg") "/usr/bin/ffmpeg" = true ∧
          ∀ j, j < i →
            is_exe (fun p => p == "/usr/bin/ffmpeg")
              (fun p => p == "/usr/bin/ffmpeg")
              (candidate "/sbin:/usr/bin" "ffmpeg" j) = false)) :=
  ⟨by decide,
    (c9_which_exe_resolution (fun p => p == "/usr/bin/ffmpeg")
        (fun p => p == "/usr/bin/ffmpeg") "/sbin:/usr/bin" "ffmpeg").2.1
      (by decide) "/usr/bin/ffmpeg"⟩

/-! ## Theorems about `audio_pre_prcs` (claims C2, C3, C4, C5, C10) -/

/-- C4: a successful scratch-mode run over `N = rest.length + 1` stage
templates creates exactly `N` temporary output files, ends with only the
final one on disk (every earlier one is deleted during the run, each has a
removal event), and never deletes the original source file. -/
theorem c4_scratch_lifecycle (names : ℕ → String) (dflt : List String)
    (filename c0 : String) (rest : List String) (inp : Option (ℕ → String))
    (ffc : String) (fuel : ℕ) (fs0 : List String) (ct pc : ℕ)
    (hinj : ∀ j, j < rest.length + 1 → ∀ k, k < rest.length + 1 →
      names (ct + j) = names (ct + k) → j = k)
    (hfresh : ∀ j, j < rest.length + 1 →
      names (ct + j) ∉ fs0 ∧ names (ct + j) ≠ filename)
    (hfmt : ∀ t, t ∈ c0 :: rest → fmtOk t = true) :
    ∃ out st',
      audio_pre_prcs names dflt filename false (c0 :: rest) inp ffc fuel
        ⟨fs0, ct, pc, []⟩ = some (out, st') ∧
      out = names (ct + rest.length) ∧
      createCount st'.evs = (c0 :: rest).length ∧
      st'.fs = out :: fs0 ∧
      out ∈ st'.fs ∧
      (∀ j, j < rest.length → names (ct + j) ∉ st'.fs ∧
        Ev.remove (names (ct + j)) ∈ st'.evs) ∧
      Ev.remove filename ∉ st'.evs := by
  have hinj' := shift_inj names ct (rest.length + 1) hinj
  have hfresh' := shift_fresh names ct (rest.length + 1) fs0 filename hfresh
  obtain ⟨st', h1, h2, h3, h4, h5, h6, h7, h8, h9⟩ :=
    audio_scratch_spec names dflt filename c0 rest inp ffc fuel fs0 ct pc
      (fun j k a b c d e => hinj' j k a (by omega) c (by omega) e)
      (fun j a b => hfresh' j a (by omega)) hfmt
  refine ⟨names (ct + rest.length), st', h1, rfl, by simpa using h8,
    h2, by simp [h2], ?_, ?_⟩
  · intro j hj
    constructor
    · rw [h2]
      simp only [List.mem_cons]
      rintro (he | he)
      · have := hinj j (by omega) rest.length (by omega) he
        omega
      · exact (hfresh j (by omega)).1 he
    · exact (h9 (ct + j) (by omega) (by omega)).2
  · intro hrm
    obtain ⟨j, hj1, hj2, hj3⟩ := h7 _ hrm
    have hj4 : ct + (j - ct) = j := by omega
    refine (hfresh (j - ct) (by omega)).2 ?_
    rw [hj4, ← hj3]

theorem c4_scratch_lifecycle_witness :
    ((∀ j, j < 2 → ∀ k, k < 2 → wNames (0 + j) = wNames (0 + k) → j = k) ∧
      (∀ j, j < 2 → wNames (0 + j) ∉ ["a.mp4"] ∧ wNames (0 + j) ≠ "a.mp4") ∧
      (∀ t, t ∈ wCmds → fmtOk t = true)) ∧
    ∃ out st',
      audio_pre_prcs wNames [] "a.mp4" false
          ("ffmpeg -i \x7bin_\x7d \x7bout_\x7d" ::
            ["ffmpeg -f flac \x7bin_\x7d \x7bout_\x7d"]) none "avconv" 5
          ⟨["a.mp4"], 0, 0, []⟩ = some (out, st') ∧
      out = wNames (0 + ["ffmpeg -f flac \x7bin_\x7d \x7bout_\x7d"].length) ∧
      createCount st'.evs =
        ("ffmpeg -i \x7bin_\x7d \x7bout_\x7d" ::
          ["ffmpeg -f flac \x7bin_\x7d \x7bout_\x7d"]).length ∧
      st'.fs = out :: ["a.mp4"] ∧
      out ∈ st'.fs ∧
      (∀ j, j < ["ffmpeg -f flac \x7bin_\x7d \x7bout_\x7d"].length →
        wNames (0 + j) ∉ st'.fs ∧ Ev.remove (wNames (0 + j)) ∈ st'.evs) ∧
      Ev.remove "a.mp4" ∉ st'.evs :=
  ⟨⟨by decide, by decide, by decide⟩,
    c4_scratch_lifecycle wNames [] "a.mp4"
      "ffmpeg -i \x7bin_\x7d \x7bout_\x7d"
      ["ffmpeg -f flac \x7bin_\x7d \x7bout_\x7d"] none "avconv" 5
      ["a.mp4"] 0 0 (by decide) (by decide) (by decide)⟩

/-- C10: in a successful scratch-mode run, every temp allocation is
deleted from disk again before the stage command runs: each of the `N`
names has a create and a remove event, and at the moment of every command
invocation no file exists at the command's designated output path. -/
theorem c10_scratch_dealloc_before_exec (names : ℕ → String)
    (dflt : List String) (filename c0 : String) (rest : List String)
    (inp : Option (ℕ → String)) (ffc : String) (fuel : ℕ)
    (fs0 : List String) (ct pc : ℕ)
    (hinj : ∀ j, j < rest.length + 1 → ∀ k, k < rest.length + 1 →
      names (ct + j) = names (ct + k) → j = k)
    (hfresh : ∀ j, j < rest.length + 1 →
      names (ct + j) ∉ fs0 ∧ names (ct + j) ≠ filename)
    (hfmt : ∀ t, t ∈ c0 :: rest → fmtOk t = true) :
    ∃ out st',
      audio_pre_prcs names dflt filename false (c0 :: rest) inp ffc fuel
        ⟨fs0, ct, pc, []⟩ = some (out, st') ∧
      (∀ c sh o pre, Ev.exec c sh o pre ∈ st'.evs → o ∉ pre) ∧
      (∀ j, j < rest.length + 1 → Ev.create (names (ct + j)) ∈ st'.evs ∧
        Ev.remove (names (ct + j)) ∈ st'.evs) ∧
      (execTriples st'.evs).length = rest.length + 1 := by
  have hinj' := shift_inj names ct (rest.length + 1) hinj
  have hfresh' := shift_fresh names ct (rest.length + 1) fs0 filename hfresh
  obtain ⟨st', h1, h2, h3, h4, h5, h6, h7, h8, h9⟩ :=
    audio_scratch_spec names dflt filename c0 rest inp ffc fuel fs0 ct pc
      (fun j k a b c d e => hinj' j k a (by omega) c (by omega) e)
      (fun j a b => hfresh' j a (by omega)) hfmt
  refine ⟨names (ct + rest.length), st', h1, ?_, ?_, ?_⟩
  · intro c sh o pre he
    exact (h6 c sh o pre he).2
  · intro j hj
    exact h9 (ct + j) (by omega) (by omega)
  · rw [h5]
    simp [scratchTriples_length]

theorem c10_scratch_dealloc_before_exec_witness :
    ((∀ j, j < 2 → ∀ k, k < 2 → wNames (1 + j) = wNames (1 + k) → j = k) ∧
      (∀ j, j < 2 → wNames (1 + j) ∉ ["b.mp4"] ∧ wNames (1 + j) ≠ "b.mp4") ∧
      (∀ t, t ∈ wCmds → fmtOk t = true)) ∧
    ∃ out st',
      audio_pre_prcs wNames [] "b.mp4" false
          ("ffmpeg -i \x7bin_\x7d \x7bout_\x7d" ::
            ["ffmpeg -f flac \x7bin_\x7d \x7bout_\x7d"]) none "avconv" 5
          ⟨["b.mp4"], 1, 0, []⟩ = some (out, st') ∧
      (∀ c sh o pre, Ev.exec c sh o pre ∈ st'.evs → o ∉ pre) ∧
      (∀ j, j < ["ffmpeg -f flac \x7bin_\x7d \x7bout_\x7d"].length + 1 →
        Ev.create (wNames (1 + j)) ∈ st'.evs ∧
        Ev.remove (wNames (1 + j)) ∈ st'.evs) ∧
      (execTriples st'.evs).length =
        ["ffmpeg -f flac \x7bin_\x7d \x7bout_\x7d"].length + 1 :=
  ⟨⟨by decide, by decide, by decide⟩,
    c10_scratch_dealloc_before_exec wNames [] "b.mp4"
      "ffmpeg -i \x7bin_\x7d \x7bout_\x7d"
      ["ffmpeg -f flac \x7bin_\x7d \x7bout_\x7d"] none "avconv" 5
      ["b.mp4"] 1 0 (by decide) (by decide) (by decide)⟩

/-- C3 (counterexample): the claim says every stage command of
`audio_pre_prcs` runs through the shell-interpreting path. In this
concrete scratch-mode run the first stage's invocation is recorded with
the shell flag `false` (the source passes `shell=False` at all three
`check_output` sites of `audio_pre_prcs`), so the claim fails. -/
theorem c3_counterexample :
    ¬ ∀ c sh o pre, Ev.exec c sh o pre ∈ runEvs cexScratch → sh = true := by
  intro h
  exact absurd
    (h "ffmpeg -i a.mp4 /tmp/t0" false "/tmp/t0" ["a.mp4"] (by decide))
    (by decide)

/-- C3 (amended): every stage command executed by a successful
`audio_pre_prcs` run — keep or scratch mode, interactive or not — is
invoked with `shell = false`, unconditionally. -/
theorem c3_amended_shell_false (names : ℕ → String) (dflt : List String)
    (filename : String) (is_keep : Bool) (cmds : List String)
    (inp : Option (ℕ → String)) (ffc : String) (fuel : ℕ)
    (fs0 : List String) (ct pc : ℕ) (out : String) (st' : St)
    (hnd : fs0.Nodup)
    (hrun : audio_pre_prcs names dflt filename is_keep cmds inp ffc fuel
      ⟨fs0, ct, pc, []⟩ = some (out, st')) :
    ∀ c sh o pre, Ev.exec c sh o pre ∈ st'.evs → sh = false := by
  intro c sh o pre he
  cases is_keep with
  | true =>
    simp only [audio_pre_prcs, if_true] at hrun
    obtain ⟨_, _, hexec⟩ := keepLoop_general inp ffc (splitext filename).1
      fuel (if cmds.isEmpty then dflt else cmds) 1 filename
      ⟨fs0, ct, pc, []⟩ out st' hrun hnd
    rcases hexec c sh o pre he with hin | ⟨hsh, _⟩
    · exact absurd hin (by simp)
    · exact hsh
  | false =>
    simp only [audio_pre_prcs, Bool.false_eq_true, if_false] at hrun
    cases hcm : (if cmds.isEmpty then dflt else cmds) with
    | nil => rw [hcm] at hrun; exact absurd hrun (by simp)
    | cons c0 rest =>
      rw [hcm] at hrun
      simp only [scratchStage, mkTempF, isfile] at hrun
      rw [if_pos (by simp)] at hrun
      cases hfm : pyFormat c0 filename (names ct) with
      | none =>
        rw [hfm] at hrun
        exact absurd hrun (by simp)
      | some s =>
        rw [hfm] at hrun
        simp only [rmF, runCmd] at hrun
        rcases scratchLoop_sh names ffc rest _ _ _ _ hrun c sh o pre he with
          hin | hsh
        · simp only [List.mem_append, List.mem_cons, List.not_mem_nil,
            or_false] at hin
          rcases hin with ((hin | hin) | hin) | hin
          · exact absurd hin (by simp)
          · exact absurd hin (by simp)
          · exact absurd hin (by simp)
          · rw [Ev.exec.injEq] at hin
            exact hin.2.1
        · exact hsh

theorem c3_amended_shell_false_witness :
    (["a.mp4"] : List String).Nodup ∧
    ∀ c sh o pre, Ev.exec c sh o pre ∈ cexScratchSt.evs → sh = false :=
  ⟨by decide,
    c3_amended_shell_false wNames [] "a.mp4" false wCmds none "avconv" 5
      ["a.mp4"] 0 0 "/tmp/t1" cexScratchSt (by decide) (by decide)⟩

/-- C2 (counterexample): the claim says the tool-name override is spliced
into the first stage's command only, every later stage running the plain
substituted template. In this concrete keep-mode run with override
`avconv`, the second stage's executed command also carries the override:
it differs from the plain substitution of the second template. -/
theorem c2_counterexample :
    execTriples (runEvs cexKeep) =
      [("avconv -i a.mp4 a_temp_1.flac", false, "a_temp_1.flac"),
        ("avconv -f flac a_temp_1.flac a_temp_2.flac", false,
          "a_temp_2.flac")] ∧
    ¬ ((execTriples (runEvs cexKeep)).getD 1 ("", false, "")).1 =
      (pyFormat "ffmpeg -f flac \x7bin_\x7d \x7bout_\x7d" "a_temp_1.flac"
        "a_temp_2.flac").getD "" :=
  ⟨by decide, by decide⟩

/-- C2 (amended): the `command[:7].replace('ffmpeg ', ffmpeg_cmd + ' ')`
splice is applied to the command of every stage in keep mode (interactive
or not) and to every stage after the first in scratch mode; the scratch
mode first stage runs the plain substituted template without the
override. -/
theorem c2_amended_splice (names : ℕ → String) (dflt : List String)
    (filename c0 : String) (rest : List String) (inp : ℕ → String)
    (ffc : String) (fuel : ℕ) (fs0 : List String) (ct pc : ℕ)
    (hinj : ∀ j, j < rest.length + 1 → ∀ k, k < rest.length + 1 →
      names (ct + j) = names (ct + k) → j = k)
    (hfresh : ∀ j, j < rest.length + 1 →
      names (ct + j) ∉ fs0 ∧ names (ct + j) ≠ filename)
    (hfmt : ∀ t, t ∈ c0 :: rest → fmtOk t = true)
    (hnd : fs0.Nodup) :
    (∃ st1,
      audio_pre_prcs names dflt filename false (c0 :: rest) (some inp) ffc
          fuel ⟨fs0, ct, pc, []⟩ =
        some (names (ct + rest.length), st1) ∧
      execTriples st1.evs =
        ((pyFormat c0 filename (names ct)).getD "", false, names ct) ::
          scratchTriples names ffc rest (names ct) (ct + 1)) ∧
    (∃ st2,
      audio_pre_prcs names dflt filename true (c0 :: rest) none ffc fuel
          ⟨fs0, ct, pc, []⟩ =
        some (keepOutNone (splitext filename).1 1 filename
          (rest.length + 1), st2) ∧
      execTriples st2.evs =
        keepTriples ffc (splitext filename).1 (c0 :: rest) 1 filename) ∧
    (∀ out st3,
      audio_pre_prcs names dflt filename true (c0 :: rest) (some inp) ffc
          fuel ⟨fs0, ct, pc, []⟩ = some (out, st3) →
      ∀ c sh o pre, Ev.exec c sh o pre ∈ st3.evs →
        ∃ t a b, t ∈ c0 :: rest ∧
          c = spliceFf ((pyFormat t a b).getD "") ffc) := by
  refine ⟨?_, ?_, ?_⟩
  · have hinj' := shift_inj names ct (rest.length + 1) hinj
    have hfresh' := shift_fresh names ct (rest.length + 1) fs0 filename hfresh
    obtain ⟨st', h1, _, _, _, h5, _⟩ :=
      audio_scratch_spec names dflt filename c0 rest (some inp) ffc fuel fs0
        ct pc (fun j k a b c d e => hinj' j k a (by omega) c (by omega) e)
        (fun j a b => hfresh' j a (by omega)) hfmt
    exact ⟨st', h1, h5⟩
  · obtain ⟨st', hrun, hexecs, _, _, _, _⟩ :=
      keepLoop_none_spec ffc (splitext filename).1 fuel (c0 :: rest) 1
        filename ⟨fs0, ct, pc, []⟩ hnd hfmt
    refine ⟨st', ?_, ?_⟩
    · simp only [audio_pre_prcs, if_true, List.isEmpty_cons,
        Bool.false_eq_true, if_false]
      simpa using hrun
    · simpa [execTriples] using hexecs
  · intro out st3 hrun c sh o pre he
    simp only [audio_pre_prcs, if_true] at hrun
    obtain ⟨_, _, hexec⟩ := keepLoop_general (some inp) ffc
      (splitext filename).1 fuel
      (if (c0 :: rest).isEmpty then dflt else c0 :: rest) 1 filename
      ⟨fs0, ct, pc, []⟩ out st3 hrun hnd
    rcases hexec c sh o pre he with hin | ⟨_, _, t, a, b, ht, hc⟩
    · exact absurd hin (by simp)
    · refine ⟨t, a, b, ?_, hc⟩
      simpa using ht

theorem c2_amended_splice_witness :
    ((∀ j, j < 2 → ∀ k, k < 2 → wNames (0 + j) = wNames (0 + k) → j = k) ∧
      (∀ j, j < 2 → wNames (0 + j) ∉ ["a.mp4"] ∧ wNames (0 + j) ≠ "a.mp4") ∧
      (∀ t, t ∈ wCmds → fmtOk t = true) ∧
      (["a.mp4"] : List String).Nodup) ∧
    ∃ st1,
      audio_pre_prcs wNames [] "a.mp4" false
          ("ffmpeg -i \x7bin_\x7d \x7bout_\x7d" ::
            ["ffmpeg -f flac \x7bin_\x7d \x7bout_\x7d"])
          (some fun _ => "/tmp/alt") "avconv" 5 ⟨["a.mp4"], 0, 0, []⟩ =
        some (wNames
          (0 + ["ffmpeg -f flac \x7bin_\x7d \x7bout_\x7d"].length), st1) ∧
      execTriples st1.evs =
        ((pyFormat "ffmpeg -i \x7bin_\x7d \x7bout_\x7d" "a.mp4"
            (wNames 0)).getD "", false, wNames 0) ::
          scratchTriples wNames "avconv"
            ["ffmpeg -f flac \x7bin_\x7d \x7bout_\x7d"] (wNames 0) (0 + 1) :=
  ⟨⟨by decide, by decide, by decide, by decide⟩,
    (c2_amended_splice wNames [] "a.mp4"
      "ffmpeg -i \x7bin_\x7d \x7bout_\x7d"
      ["ffmpeg -f flac \x7bin_\x7d \x7bout_\x7d"] (fun _ => "/tmp/alt")
      "avconv" 5 ["a.mp4"] 0 0 (by decide) (by decide) (by decide)
      (by decide)).1⟩

/-- C5 (counterexample): the claim says the interactive collision loop
strips the extension from the prompted response and appends the stage's
expected extension — `.flac`, the extension of the derived name
`<stem>_temp_<i>.flac` — which for the response `/tmp/alt` would give
`/tmp/alt.flac`. The code appends `.temp.flac` instead: the concrete
keep-mode run with a collision at `a_temp_1.flac` and response `/tmp/alt`
produces the output path `/tmp/alt.temp.flac`. -/
theorem c5_counterexample :
    Option.map Prod.fst cexKeepAlt = some "/tmp/alt.temp.flac" ∧
    "/tmp/alt.temp.flac" ≠ "/tmp/alt.flac" :=
  ⟨by decide, by decide⟩

/-- C5 (amended): keep mode derives stage 1's output as
`<source-stem>_temp_1.flac`. Without an interactive capability a
pre-existing file at that path is removed before the stage writes, and
every stage command's output path is absent at invocation time. With an
interactive capability, a successful run never removes any file, its
chosen output path has no existing file, it is the derived path when
there was no collision, and after a collision it is a prompted response
with its extension stripped and `.temp.flac` appended (a suffix whose
trailing extension is the stage's `.flac`). -/
theorem c5_amended_keep_naming (names : ℕ → String) (dflt : List String)
    (filename tmpl ffc : String) (rest : List String) (fuel : ℕ)
    (fs0 : List String) (ct pc : ℕ) (inp : ℕ → String) (hnd : fs0.Nodup)
    (hfmtR : ∀ t, t ∈ tmpl :: rest → fmtOk t = true) :
    (∃ st0,
      audio_pre_prcs names dflt filename true (tmpl :: rest) none ffc fuel
          ⟨fs0, ct, pc, []⟩ =
        some (keepOutNone (splitext filename).1 1 filename
          (rest.length + 1), st0) ∧
      execTriples st0.evs =
        keepTriples ffc (splitext filename).1 (tmpl :: rest) 1 filename) ∧
    (∃ st',
      audio_pre_prcs names dflt filename true [tmpl] none ffc fuel
          ⟨fs0, ct, pc, []⟩ =
        some ((splitext filename).1 ++ "_temp_" ++ toString 1 ++ ".flac",
          st') ∧
      ((splitext filename).1 ++ "_temp_" ++ toString 1 ++ ".flac" ∈ fs0 →
        Ev.remove ((splitext filename).1 ++ "_temp_" ++ toString 1 ++
          ".flac") ∈ st'.evs) ∧
      (∀ c sh o pre, Ev.exec c sh o pre ∈ st'.evs → o ∉ pre)) ∧
    (∀ out st',
      audio_pre_prcs names dflt filename true [tmpl] (some inp) ffc fuel
          ⟨fs0, ct, pc, []⟩ = some (out, st') →
      out ∉ fs0 ∧
      (∀ p, Ev.remove p ∉ st'.evs) ∧
      ((splitext filename).1 ++ "_temp_" ++ toString 1 ++ ".flac" ∉ fs0 →
        out = (splitext filename).1 ++ "_temp_" ++ toString 1 ++ ".flac") ∧
      ((splitext filename).1 ++ "_temp_" ++ toString 1 ++ ".flac" ∈ fs0 →
        ∃ k, pc ≤ k ∧ out = altPath (inp k))) := by
  have hfmt : fmtOk tmpl = true := hfmtR tmpl (by simp)
  have hfmt1 : ∀ t, t ∈ [tmpl] → fmtOk t = true := by
    intro t ht
    simp only [List.mem_cons, List.not_mem_nil, or_false] at ht
    rw [ht]
    exact hfmt
  refine ⟨?_, ?_, ?_⟩
  · obtain ⟨st0, hrun, hexecs, _, _, _, _⟩ :=
      keepLoop_none_spec ffc (splitext filename).1 fuel (tmpl :: rest) 1
        filename ⟨fs0, ct, pc, []⟩ hnd hfmtR
    refine ⟨st0, ?_, ?_⟩
    · simp only [audio_pre_prcs, if_true, List.isEmpty_cons,
        Bool.false_eq_true, if_false]
      simpa using hrun
    · simpa [execTriples] using hexecs
  · obtain ⟨st', hrun, _, _, _, _, hcol⟩ :=
      keepLoop_none_spec ffc (splitext filename).1 fuel [tmpl] 1 filename
        ⟨fs0, ct, pc, []⟩ hnd hfmt1
    have hko : keepOutNone (splitext filename).1 1 filename
        ([tmpl] : List String).length =
        (splitext filename).1 ++ "_temp_" ++ toString 1 ++ ".flac" := rfl
    rw [hko] at hrun
    obtain ⟨_, _, hexec⟩ := keepLoop_general none ffc (splitext filename).1
      fuel [tmpl] 1 filename ⟨fs0, ct, pc, []⟩ _ st' hrun hnd
    refine ⟨st', ?_, ?_, ?_⟩
    · simp only [audio_pre_prcs, if_true, List.isEmpty_cons,
        Bool.false_eq_true, if_false]
      exact hrun
    · intro hmem
      exact hcol (by simp) (by simpa [isfile] using hmem)
    · intro c sh o pre he
      rcases hexec c sh o pre he with hin | ⟨_, hop, _⟩
      · exact absurd hin (by simp)
      · exact hop
  · intro out st' hrun
    simp only [audio_pre_prcs, if_true, List.isEmpty_cons,
      Bool.false_eq_true, if_false] at hrun
    simp only [keepLoop] at hrun
    cases hcl : collisionLoop inp fuel
        ((splitext filename).1 ++ "_temp_" ++ toString 1 ++ ".flac")
        ⟨fs0, ct, pc, []⟩ with
    | none => rw [hcl] at hrun; exact absurd hrun (by simp)
    | some res =>
      obtain ⟨o1, stA⟩ := res
      rw [hcl] at hrun
      simp only at hrun
      obtain ⟨hfsA, hctrA, ho1, hextA, hmonoA, hnc, hyc⟩ :=
        collisionLoop_evs inp fuel _ _ o1 stA hcl
      cases hfm : pyFormat tmpl filename o1 with
      | none => rw [hfm] at hrun; exact absurd hrun (by simp)
      | some s =>
        rw [hfm] at hrun
        simp only [keepLoop, Option.some.injEq, Prod.mk.injEq] at hrun
        obtain ⟨hout, hst⟩ := hrun
        subst hout
        subst hst
        refine ⟨ho1, ?_, ?_, ?_⟩
        · intro p hp
          simp only [runCmd, List.mem_append, List.mem_cons,
            List.not_mem_nil, or_false] at hp
          rcases hp with hp | hp
          · rcases hextA _ hp with h | ⟨m, hm⟩ | ⟨m, r, hm⟩
            · exact absurd h (by simp)
            · exact absurd hm (by simp)
            · exact absurd hm (by simp)
          · exact absurd hp (by simp)
        · intro hnm
          exact (hnc (by simpa [isfile] using hnm)).2
        · intro hmem
          obtain ⟨k, hk1, hk2⟩ := hyc (by simpa [isfile] using hmem)
          exact ⟨k, hk1, hk2⟩

theorem c5_amended_keep_naming_witness :
    ((["a.mp4", "a_temp_1.flac"] : List String).Nodup ∧
      (∀ t, t ∈ ["ffmpeg -i \x7bin_\x7d \x7bout_\x7d"] →
        fmtOk t = true)) ∧
    ∃ st',
      audio_pre_prcs wNames [] "a.mp4" true
          ["ffmpeg -i \x7bin_\x7d \x7bout_\x7d"] none "avconv" 5
          ⟨["a.mp4", "a_temp_1.flac"], 0, 0, []⟩ =
        some ((splitext "a.mp4").1 ++ "_temp_" ++ toString 1 ++ ".flac",
          st') ∧
      ((splitext "a.mp4").1 ++ "_temp_" ++ toString 1 ++ ".flac" ∈
          ["a.mp4", "a_temp_1.flac"] →
        Ev.remove ((splitext "a.mp4").1 ++ "_temp_" ++ toString 1 ++
          ".flac") ∈ st'.evs) ∧
      (∀ c sh o pre, Ev.exec c sh o pre ∈ st'.evs → o ∉ pre) :=
  ⟨⟨by decide, by decide⟩,
    (c5_amended_keep_naming wNames [] "a.mp4"
      "ffmpeg -i \x7bin_\x7d \x7bout_\x7d" "avconv" [] 5
      ["a.mp4", "a_temp_1.flac"] 0 0 (fun _ => "/tmp/alt") (by decide)
      (by decide)).2.1⟩

end FfmpegUtils
